import Mathlib

set_option maxHeartbeats 1000000

/-!
Verification development for the dami_utils repository.

The repository has two components:
* `dami_utils/drawio.py` — a `DrawIO` class editing DrawIO XML documents
  through `xml.etree.ElementTree` (load, save, get_elements, add_element,
  update_element, remove_element, insert_latex_equation, create_new);
* `dami_utils/path.py` — `get_parent_dir`, repeated `os.path.dirname`.

The XML trees manipulated by the code are embedded as `XEl` below; the
`ElementTree` operations the code relies on (attribute get/set, `find`,
`findall` with the `.//tag` descendant selector, child append and removal,
serialization and parsing) are modelled on `XEl` following the semantics of
the Python standard library, restricted to the fragment this code touches
(element structure and attributes; text nodes, comments and namespaces are
not read or produced by this library).
-/

/-- An XML element: tag, attribute list (Python keeps attributes as an
insertion-ordered dict; keys are unique in any tree produced by parsing or by
this code), and child elements. -/
inductive XEl where
  | mk (tag : String) (attrs : List (String × String)) (children : List XEl)

/-- The tag of an element. -/
def XEl.tag : XEl → String
  | ⟨t, _, _⟩ => t

/-- The attribute list of an element. -/
def XEl.attrs : XEl → List (String × String)
  | ⟨_, a, _⟩ => a

/-- The child list of an element. -/
def XEl.children : XEl → List XEl
  | ⟨_, _, cs⟩ => cs

/-- Attribute lookup, first entry with the given key
(`element.attrib` is a dict, so keys are unique and the first match is the
entry). -/
def getAttr? (a : List (String × String)) (k : String) : Option String :=
  (a.find? (fun kv => kv.1 == k)).map (fun kv => kv.2)

/-- `element.get(key, default)`. -/
def getAttr (a : List (String × String)) (k : String) (d : String) : String :=
  (getAttr? a k).getD d

/-- `element.set(key, value)`: overwrite an existing key in place, else
append the new pair at the end (Python dict update semantics). -/
def setAttr : List (String × String) → String → String → List (String × String)
  | [], k, v => [(k, v)]
  | (k0, v0) :: rest, k, v =>
    if k0 = k then (k, v) :: rest else (k0, v0) :: setAttr rest k v

/-- `for key, value in fields.items(): element.set(key, value)` starting from
an empty attribute dict (fresh `ET.SubElement`). -/
def attrsOfFields (fields : List (String × String)) : List (String × String) :=
  fields.foldl (fun a kv => setAttr a kv.1 kv.2) []

/-- Tag test used by `findall(".//mxCell")`. -/
def isCell (e : XEl) : Bool := e.tag == "mxCell"

/-- Tag test used by `root.find(".//diagram")`. -/
def isDiagram (e : XEl) : Bool := e.tag == "diagram"

/-- All descendants of the elements of `l` (the elements themselves
included) satisfying `p`, in document order — the result of
`findall(".//tag")` run from a node whose children are `l`. -/
def descsL (p : XEl → Bool) : List XEl → List XEl
  | [] => []
  | XEl.mk t a ccs :: cs =>
    (if p (XEl.mk t a ccs) then [XEl.mk t a ccs] else [])
      ++ descsL p ccs ++ descsL p cs

/-- First descendant satisfying `p` in document order — `find(".//tag")`
run from a node whose children are `l`. -/
def findDescL (p : XEl → Bool) : List XEl → Option XEl
  | [] => none
  | XEl.mk t a ccs :: cs =>
    if p (XEl.mk t a ccs) then some (XEl.mk t a ccs)
    else
      match findDescL p ccs with
      | some e => some e
      | none => findDescL p cs

/-- Geometry fields read by `get_elements` from a nested `mxGeometry` node. -/
structure GeomData where
  x : String
  y : String
  width : String
  height : String
deriving DecidableEq, Repr

/-- The flat record `get_elements` builds for one `mxCell`. -/
structure ElementData where
  id : String
  value : String
  style : String
  parent : String
  vertex : String
  edge : String
  geom : Option GeomData
deriving DecidableEq, Repr

/-- The dict built for one cell by `DrawIO.get_elements`: the six attributes
with default `""`, plus the geometry attributes when the cell has an
`mxGeometry` direct child (`element.find("mxGeometry")`). -/
def elementData (e : XEl) : ElementData :=
  { id := getAttr e.attrs "id" ""
    value := getAttr e.attrs "value" ""
    style := getAttr e.attrs "style" ""
    parent := getAttr e.attrs "parent" ""
    vertex := getAttr e.attrs "vertex" ""
    edge := getAttr e.attrs "edge" ""
    geom := (e.children.find? (fun c => c.tag == "mxGeometry")).map
      (fun g => ⟨getAttr g.attrs "x" "", getAttr g.attrs "y" "",
                 getAttr g.attrs "width" "", getAttr g.attrs "height" ""⟩) }

/-- The mutable state of a `DrawIO` instance: `self.root` and `self.diagram`.
In the source `self.diagram` is a live reference to a node inside
`self.root`, so element mutations performed through `self.diagram` are seen
by `self.root` as well; the claims below observe mutated states only through
`self.diagram` (via `get_elements`), and `load`, `save` and `create_new` —
the operations that touch `root` — are modelled exactly, so the embedding
tracks element mutations on the `diagram` component. -/
structure DrawIOState where
  root : Option XEl
  diagram : Option XEl

/-- Base64 alphabet (RFC 4648, as used by `base64.b64encode`). -/
def base64Table : List Char :=
  "ABCDEFGHIJKLMNOPQRSTUVWXYZabcdefghijklmnopqrstuvwxyz0123456789+/".data

/-- Character of the base64 alphabet at index `n`. -/
def b64At (n : Nat) : Char := base64Table.getD n 'A'

/-- `base64.b64encode` on a byte list. -/
def b64encodeBytes : List Nat → List Char
  | b1 :: b2 :: b3 :: rest =>
    b64At (b1 / 4) :: b64At (b1 % 4 * 16 + b2 / 16) ::
      b64At (b2 % 16 * 4 + b3 / 64) :: b64At (b3 % 64) :: b64encodeBytes rest
  | [b1, b2] => [b64At (b1 / 4), b64At (b1 % 4 * 16 + b2 / 16), b64At (b2 % 16 * 4), '=']
  | [b1] => [b64At (b1 / 4), b64At (b1 % 4 * 16), '=', '=']
  | [] => []

/-- UTF-8 encoding of one character (`str.encode("utf-8")`). -/
def utf8Bytes (c : Char) : List Nat :=
  let n := c.toNat
  if n < 128 then [n]
  else if n < 2048 then [192 + n / 64, 128 + n % 64]
  else if n < 65536 then [224 + n / 4096, 128 + n / 64 % 64, 128 + n % 64]
  else [240 + n / 262144, 128 + n / 4096 % 64, 128 + n / 64 % 64, 128 + n % 64]

/-- `base64.b64encode(s.encode("utf-8")).decode("utf-8")`. -/
def b64encodeStr (s : String) : String :=
  String.mk (b64encodeBytes (s.data.flatMap utf8Bytes))

/-!
Model of the XML layer (`ElementTree.write` and `ElementTree.parse`) for the
fragment this library produces and reads: elements with attributes, no text
nodes, no comments, no namespaces.
-/

/-- Attribute-value escaping of `ElementTree` (`_escape_attrib`): `&`, `<`,
`>`, `"` and the whitespace characters tab, newline, carriage return become
character references, everything else is copied. -/
def escapeAttribChar (c : Char) : List Char :=
  if c = '&' then ['&', 'a', 'm', 'p', ';']
  else if c = '<' then ['&', 'l', 't', ';']
  else if c = '>' then ['&', 'g', 't', ';']
  else if c = '"' then ['&', 'q', 'u', 'o', 't', ';']
  else if c = '\r' then ['&', '#', '1', '3', ';']
  else if c = '\n' then ['&', '#', '1', '0', ';']
  else if c = '\t' then ['&', '#', '0', '9', ';']
  else [c]

/-- Attribute-value escaping of a whole value. -/
def escapeAttribL (v : List Char) : List Char := v.flatMap escapeAttribChar

/-- Serialization of an attribute list: ` key="escaped value"` for each
entry, in order. -/
def serializeAttrs (a : List (String × String)) : List Char :=
  a.flatMap (fun kv => ' ' :: kv.1.data ++ '=' :: '"' :: escapeAttribL kv.2.data ++ ['"'])

/-- Serialization of a forest of elements in document order
(`_serialize_xml` with `short_empty_elements=True`): a childless element is
written `<tag attrs />`, otherwise `<tag attrs>children</tag>`. -/
def serializeList : List XEl → List Char
  | [] => []
  | XEl.mk t a ccs :: cs =>
    (match ccs with
     | [] => '<' :: t.data ++ serializeAttrs a ++ [' ', '/', '>']
     | c :: ccs' =>
       '<' :: t.data ++ serializeAttrs a ++ '>' :: serializeList (c :: ccs')
         ++ '<' :: '/' :: t.data ++ ['>'])
      ++ serializeList cs

/-- Serialization of one element. -/
def serializeEl (x : XEl) : List Char := serializeList [x]

/-- The declaration `tree.write(path, encoding="UTF-8", xml_declaration=True)`
puts in front of the document. -/
def xmlDeclChars : List Char := "<?xml version=\x271.0\x27 encoding=\x27UTF-8\x27?>\n".data

/-- The byte content `DrawIO.save` writes for a document root. -/
def serializeDocument (root : XEl) : String :=
  String.mk (xmlDeclChars ++ serializeEl root)

/-- Characters allowed in tag and attribute names by the parser model. -/
def isNameChar (c : Char) : Bool :=
  c.isAlpha || c.isDigit || c = '_' || c = '-' || c = '.' || c = ':'

/-- XML whitespace. -/
def isXmlSpace (c : Char) : Bool :=
  c = ' ' || c = '\t' || c = '\n' || c = '\r'

/-- Decode one character reference after a `&`: the references the
serializer emits. -/
def parseEntity : List Char → Option (Char × List Char)
  | 'a' :: 'm' :: 'p' :: ';' :: r => some ('&', r)
  | 'l' :: 't' :: ';' :: r => some ('<', r)
  | 'g' :: 't' :: ';' :: r => some ('>', r)
  | 'q' :: 'u' :: 'o' :: 't' :: ';' :: r => some ('"', r)
  | '#' :: '1' :: '3' :: ';' :: r => some ('\r', r)
  | '#' :: '1' :: '0' :: ';' :: r => some ('\n', r)
  | '#' :: '0' :: '9' :: ';' :: r => some ('\t', r)
  | _ => none

/-- Parse an attribute value up to the closing quote, decoding the character
references the serializer emits; returns the decoded value and the input
after the closing quote. `fuel` bounds the value length. -/
def parseAttrValue (fuel : Nat) (input : List Char) : Option (List Char × List Char) :=
  match input with
  | [] => none
  | c :: rest =>
    if c = '"' then some ([], rest)
    else
      match fuel with
      | 0 => none
      | fuel' + 1 =>
        if c = '&' then
          match parseEntity rest with
          | some (ch, r) => (parseAttrValue fuel' r).map (fun pr => (ch :: pr.1, pr.2))
          | none => none
        else (parseAttrValue fuel' rest).map (fun pr => (c :: pr.1, pr.2))

/-- Parse the attribute list of a start tag: a sequence of
` name="value"` groups, stopping in front of `>` or `/>` (the blank before
`/>` is consumed). `fuel` bounds the number of attributes. -/
def parseAttrs (fuel : Nat) (input : List Char) : Option (List (String × String) × List Char) :=
  match input with
  | [] => none
  | c :: rest =>
    if c = '>' ∨ c = '/' then some ([], c :: rest)
    else if c = ' ' then
      if rest.head? = some '/' then some ([], rest)
      else
        match fuel with
        | 0 => none
        | fuel' + 1 =>
          let name := rest.takeWhile isNameChar
          let rest1 := rest.dropWhile isNameChar
          if name = [] then none
          else
            match rest1 with
            | '=' :: '"' :: rest2 =>
              match parseAttrValue rest2.length rest2 with
              | some (v, rest3) =>
                (parseAttrs fuel' rest3).map
                  (fun pr => ((String.mk name, String.mk v) :: pr.1, pr.2))
              | none => none
            | _ => none
    else none

mutual

/-- Parse one element (start tag, attributes, children, matching end tag, or
a self-closing tag). `fuel` bounds the nesting depth and the child counts. -/
def parseEl (fuel : Nat) (input : List Char) : Option (XEl × List Char) :=
  match input with
  | '<' :: rest =>
    let name := rest.takeWhile isNameChar
    let rest1 := rest.dropWhile isNameChar
    if name = [] then none
    else
      match fuel with
      | 0 => none
      | fuel' + 1 =>
        match parseAttrs fuel' rest1 with
        | none => none
        | some (attrs, rest2) =>
          match rest2 with
          | '/' :: '>' :: rest3 => some (XEl.mk (String.mk name) attrs [], rest3)
          | '>' :: rest3 =>
            match parseChildren fuel' rest3 with
            | none => none
            | some (children, rest4) =>
              match rest4 with
              | '<' :: '/' :: rest5 =>
                match rest5.drop name.length with
                | '>' :: rest6 =>
                  if rest5.take name.length = name then
                    some (XEl.mk (String.mk name) attrs children, rest6)
                  else none
                | _ => none
              | _ => none
          | _ => none
  | _ => none

/-- Parse a forest of sibling elements, stopping in front of an end tag
`</…`. -/
def parseChildren (fuel : Nat) (input : List Char) : Option (List XEl × List Char) :=
  match input with
  | '<' :: rest =>
    if rest.head? = some '/' then some ([], '<' :: rest)
    else
      match fuel with
      | 0 => none
      | fuel' + 1 =>
        match parseEl fuel' ('<' :: rest) with
        | none => none
        | some (el, rest2) =>
          match parseChildren fuel' rest2 with
          | some (els, rest3) => some (el :: els, rest3)
          | none => none
  | _ => none

end

/-- Skip the remainder of an XML declaration: drop up to and including the
first `?>`. -/
def skipDecl : List Char → Option (List Char)
  | [] => none
  | c :: rest =>
    if c = '?' ∧ rest.head? = some '>' then some rest.tail
    else skipDecl rest

/-- `ElementTree.parse` on the modelled fragment: an optional declaration,
then one element, then trailing whitespace only. -/
def parseDocumentChars (input : List Char) : Option XEl :=
  let body :=
    match input with
    | '<' :: '?' :: rest => skipDecl rest
    | _ => some input
  match body with
  | none => none
  | some b0 =>
    let b := b0.dropWhile isXmlSpace
    match parseEl b.length b with
    | some (el, rest) => if rest.dropWhile isXmlSpace = [] then some el else none
    | none => none

/-- `ElementTree.parse` on a file content string. -/
def parseDocument (s : String) : Option XEl := parseDocumentChars s.data

/-- Fuel sufficient for `parseChildren` on the serialization of a forest. -/
def needList : List XEl → Nat
  | [] => 0
  | XEl.mk _ a ccs :: cs => 1 + (1 + a.length + needList ccs) + needList cs

/-- Fuel sufficient for `parseEl` on the serialization of an element. -/
def needEl : XEl → Nat
  | XEl.mk _ a ccs => 1 + a.length + needList ccs

/-- A non-empty name made of name characters — what the parser can read
back. -/
def wfNameB (s : String) : Bool := !s.data.isEmpty && s.data.all isNameChar

/-- Well-formedness of a forest for serialization round-trip: every tag and
attribute key is a readable name (attribute values need no condition, the
serializer escapes them). -/
def wfList : List XEl → Bool
  | [] => true
  | XEl.mk t a ccs :: cs =>
    wfNameB t && a.all (fun kv => wfNameB kv.1) && wfList ccs && wfList cs

/-- Well-formedness of one element. -/
def wfEl (x : XEl) : Bool := wfList [x]

/-!
The `DrawIO` class operations (namespace `Drawio` here). Failure is an
`Except.error` carrying the Python exception message. `load` takes the file
content as a string (the file system read is outside the model); its result
pairs the raised-or-returned outcome with the final state, because the
source assigns `self.root` and `self.diagram` before validating. The
`latex2svg` rendering collaborator is a black box returning
`{svg, width, height}` (spec section 6), passed in as `SvgOutput`; the
`fontsize`/`params` merge only shapes the renderer call and is absorbed into
that input. -/

/-- Renderer result consumed by `insert_latex_equation`. -/
structure SvgOutput where
  svg : String
  width : Int
  height : Int

/-- The style string built for an inserted equation: fixed prefix, base64
SVG payload, closing semicolon. -/
def latexStyle (svg_base64 : String) : String :=
  "shape=image;verticalLabelPosition=bottom;labelBackgroundColor=#ffffff;verticalAlign=top;aspect=fixed;imageAspect=0;image=data:image/svg+xml;base64,"
    ++ svg_base64 ++ ";"

/-- `ET.SubElement(diagram, "mxCell")` followed by setting each field —
the shared core of `add_element` (and of `create_new`, which calls
`self.add_element`; the appended cell is visible from the document root
through the live `self.diagram` reference). -/
def addCell (d : XEl) (fields : List (String × String)) : XEl :=
  XEl.mk d.tag d.attrs (d.children ++ [XEl.mk "mxCell" (attrsOfFields fields) []])

/-- `DrawIO.load`: parse, assign `self.root`, look up `self.diagram`, then
raise when the document has no diagram node. A parse failure raises before
any assignment. -/
def Drawio.load (s : DrawIOState) (content : String) : Except String Unit × DrawIOState :=
  match parseDocument content with
  | none => (.error "ParseError", s)
  | some r =>
    match findDescL isDiagram r.children with
    | none => (.error "No diagram found in the DrawIO file", ⟨some r, none⟩)
    | some d => (.ok (), ⟨some r, some d⟩)

/-- `DrawIO.save`: serialize `self.root` with declaration and UTF-8
encoding; the returned string is the written file content. -/
def Drawio.save (s : DrawIOState) : Except String String :=
  match s.root with
  | none => .error "No DrawIO content to save"
  | some r => .ok (serializeDocument r)

/-- `DrawIO.get_elements`: empty when no diagram is held, otherwise one
record per `.//mxCell` descendant of the diagram, in document order. -/
def Drawio.get_elements (s : DrawIOState) : List ElementData :=
  match s.diagram with
  | none => []
  | some d => (descsL isCell d.children).map elementData

/-- `get_elements` as a state transaction: the source method only traverses
the tree, so the state comes back unchanged. -/
def Drawio.get_elements_run (s : DrawIOState) : List ElementData × DrawIOState :=
  (Drawio.get_elements s, s)

/-- `DrawIO.add_element`. -/
def Drawio.add_element (s : DrawIOState) (element_data : List (String × String)) :
    Except String DrawIOState :=
  match s.diagram with
  | none => .error "No diagram loaded"
  | some d => .ok ⟨s.root, some (addCell d element_data)⟩

/-- `DrawIO.insert_latex_equation`: base64-encode the rendered SVG, derive
the id from the current element count, append the image cell with its
geometry child, return the id. -/
def Drawio.insert_latex_equation (s : DrawIOState) (svg_output : SvgOutput)
    (position : Int × Int) : Except String (DrawIOState × String) :=
  match s.diagram with
  | none => .error "No diagram loaded"
  | some d =>
    let svg_base64 := b64encodeStr svg_output.svg
    let new_id := "latex_" ++ toString ((Drawio.get_elements s).length + 1)
    let geometry := XEl.mk "mxGeometry"
      (attrsOfFields
        [("x", toString position.1), ("y", toString position.2),
         ("width", toString svg_output.width), ("height", toString svg_output.height),
         ("as", "geometry")]) []
    let image_element := XEl.mk "mxCell"
      (attrsOfFields
        [("id", new_id), ("style", latexStyle svg_base64),
         ("vertex", "1"), ("parent", "1")]) [geometry]
    .ok (⟨s.root, some (XEl.mk d.tag d.attrs (d.children ++ [image_element]))⟩, new_id)

/-- `DrawIO.create_new`: fresh `mxfile` root, a `diagram` child with id `1`
and name `Page-1`, then `self.add_element` for the two baseline cells (the
appended cells are visible from the root through the live diagram
reference). Total — no failure modes. -/
def Drawio.create_new (_s : DrawIOState) : DrawIOState :=
  let d0 := XEl.mk "diagram" (setAttr (setAttr [] "id" "1") "name" "Page-1") []
  let d1 := addCell d0 [("id", "0")]
  let d2 := addCell d1 [("id", "1"), ("parent", "0")]
  ⟨some (XEl.mk "mxfile" [] [d2]), some d2⟩

/-!
The path helper, `dami_utils/path.py`. `os.path` is `posixpath` on the
POSIX platforms the package targets; `osp.dirname` is modelled after
`posixpath.dirname`.
-/

/-- `p.rfind("/") + 1`: one past the index of the last slash, `0` when there
is none. -/
def rfindSlashSucc : List Char → Nat
  | [] => 0
  | c :: cs =>
    let r := rfindSlashSucc cs
    if r > 0 then r + 1 else if c = '/' then 1 else 0

/-- `posixpath.dirname`: take everything up to the last slash, then strip
trailing slashes unless the head is empty or all slashes. -/
def dirname (p : String) : String :=
  let cs := p.data
  let i := rfindSlashSucc cs
  let head := cs.take i
  if head ≠ [] ∧ ¬ head.all (fun c => c = '/') then
    String.mk ((head.reverse.dropWhile (fun c => c = '/')).reverse)
  else String.mk head

/-- `get_parent_dir(path, level=1)`: `for _ in range(level): path =
osp.dirname(path)`. A non-positive `level` gives an empty `range`. -/
def get_parent_dir (path : String) (level : Int := 1) : String :=
  (List.range level.toNat).foldl (fun p _ => dirname p) path

/-!
Relations used to state the update claim: `Rg` records what an in-place
attribute update of one nested cell can change about any other node
(nothing a `get_elements` record reads), and `RecsUpd` states that exactly
one matching cell had its attributes rewritten while every other cell keeps
its `get_elements` record.
-/

theorem listXEl_ind {P : List XEl → Prop} (h0 : P [])
    (h1 : ∀ t a ccs cs, P ccs → P cs → P (XEl.mk t a ccs :: cs)) : ∀ l, P l := by
  have key : ∀ n (l : List XEl), sizeOf l ≤ n → P l := by
    intro n
    induction n with
    | zero =>
      intro l hl
      cases l with
      | nil => exact h0
      | cons c cs =>
        exfalso
        cases c
        simp at hl
    | succ n ih =>
      intro l hl
      cases l with
      | nil => exact h0
      | cons c cs =>
        cases c with
        | mk t a ccs =>
          have hsz : sizeOf (XEl.mk t a ccs :: cs)
              = 1 + (1 + sizeOf t + sizeOf a + sizeOf ccs) + sizeOf cs := by
            simp
          rw [hsz] at hl
          exact h1 t a ccs cs (ih ccs (by omega)) (ih cs (by omega))
  intro l
  exact key (sizeOf l) l le_rfl

theorem descsL_cons (p : XEl → Bool) (x : XEl) (cs : List XEl) :
    descsL p (x :: cs)
      = (if p x then [x] else []) ++ descsL p x.children ++ descsL p cs := by
  cases x
  simp only [descsL, XEl.children]

theorem findDescL_cons (p : XEl → Bool) (x : XEl) (cs : List XEl) :
    findDescL p (x :: cs)
      = if p x then some x
        else
          match findDescL p x.children with
          | some e => some e
          | none => findDescL p cs := by
  cases x
  simp only [findDescL, XEl.children]

theorem descsL_append (p : XEl → Bool) (l1 l2 : List XEl) :
    descsL p (l1 ++ l2) = descsL p l1 ++ descsL p l2 := by
  induction l1 with
  | nil => simp [descsL]
  | cons c cs ih =>
    rw [List.cons_append, descsL_cons, descsL_cons, ih]
    simp [List.append_assoc]

theorem getAttr?_cons (k0 v0 : String) (rest : List (String × String)) (k : String) :
    getAttr? ((k0, v0) :: rest) k = if k0 = k then some v0 else getAttr? rest k := by
  by_cases h : k0 = k <;> simp [getAttr?, List.find?_cons, h]

theorem setAttr_not_mem (a : List (String × String)) (k v : String)
    (h : k ∉ a.map Prod.fst) : setAttr a k v = a ++ [(k, v)] := by
  induction a with
  | nil => rfl
  | cons kv rest ih =>
    obtain ⟨k0, v0⟩ := kv
    simp only [List.map_cons, List.mem_cons, not_or] at h
    rw [setAttr, if_neg (fun he => h.1 he.symm), ih h.2]
    rfl

theorem foldl_setAttr_fresh (fields : List (String × String)) :
    ∀ a0, (fields.map Prod.fst).Nodup →
    (∀ k ∈ fields.map Prod.fst, k ∉ a0.map Prod.fst) →
    fields.foldl (fun a kv => setAttr a kv.1 kv.2) a0 = a0 ++ fields := by
  induction fields with
  | nil =>
    intro a0 _ _
    simp
  | cons kv rest ih =>
    intro a0 hnd hdisj
    obtain ⟨k1, v1⟩ := kv
    simp only [List.map_cons, List.nodup_cons] at hnd
    simp only [List.map_cons, List.mem_cons] at hdisj
    rw [List.foldl_cons, setAttr_not_mem a0 k1 v1 (hdisj k1 (Or.inl rfl))]
    rw [ih (a0 ++ [(k1, v1)]) hnd.2 ?_]
    · simp
    · intro k hk
      simp only [List.map_append, List.mem_append, not_or]
      refine ⟨hdisj k (Or.inr hk), ?_⟩
      simp only [List.map_cons, List.map_nil, List.mem_singleton]
      intro he
      rw [he] at hk
      exact hnd.1 hk

theorem attrsOfFields_eq (fields : List (String × String))
    (h : (fields.map Prod.fst).Nodup) : attrsOfFields fields = fields := by
  unfold attrsOfFields
  rw [foldl_setAttr_fresh fields [] h (by simp)]
  simp

theorem getAttr?_mem_nodup (l : List (String × String)) (k v : String)
    (hnd : (l.map Prod.fst).Nodup) (hm : (k, v) ∈ l) : getAttr? l k = some v := by
  induction l with
  | nil => cases hm
  | cons kv rest ih =>
    obtain ⟨k1, v1⟩ := kv
    simp only [List.map_cons, List.nodup_cons] at hnd
    rcases List.mem_cons.mp hm with he | hm'
    · cases he
      rw [getAttr?_cons, if_pos rfl]
    · have hne : k1 ≠ k := by
        intro he
        rw [he] at hnd
        exact hnd.1 (List.mem_map.mpr ⟨(k, v), hm', rfl⟩)
      rw [getAttr?_cons, if_neg hne, ih hnd.2 hm']

theorem descsL_nil (p : XEl → Bool) : descsL p [] = [] := by
  simp [descsL]

theorem findDescL_nil (p : XEl → Bool) : findDescL p [] = none := by
  simp [findDescL]

/-- C7: with a Diagram held, `add_element(fields)` appends exactly one new
cell whose attributes are exactly the supplied fields (no defaults
injected), and — when the supplied id is fresh and the field keys are
unique — the updated element list contains exactly one element whose
attributes match `fields`; with no Diagram held it fails with "no diagram
loaded". -/
theorem Drawio.add_element_spec (s : DrawIOState) (i : String)
    (fields : List (String × String)) :
    (s.diagram = none → Drawio.add_element s fields = .error "No diagram loaded")
    ∧ (∀ d, s.diagram = some d →
        Drawio.add_element s fields = .ok ⟨s.root, some (addCell d fields)⟩
        ∧ descsL isCell (addCell d fields).children
            = descsL isCell d.children ++ [XEl.mk "mxCell" (attrsOfFields fields) []]
        ∧ ((fields.map Prod.fst).Nodup → attrsOfFields fields = fields)
        ∧ ((fields.map Prod.fst).Nodup → ("id", i) ∈ fields →
            (∀ c ∈ descsL isCell d.children, getAttr? c.attrs "id" ≠ some i) →
            (descsL isCell (addCell d fields).children).countP
              (fun c => fields.all (fun kv => getAttr? c.attrs kv.1 == some kv.2)) = 1)
        ∧ Drawio.get_elements ⟨s.root, some (addCell d fields)⟩
            = (descsL isCell (addCell d fields).children).map elementData) := by
  constructor
  · intro h0
    simp [Drawio.add_element, h0]
  · intro d hd
    have hch : (addCell d fields).children
        = d.children ++ [XEl.mk "mxCell" (attrsOfFields fields) []] := rfl
    have hsingle : descsL isCell [XEl.mk "mxCell" (attrsOfFields fields) []]
        = [XEl.mk "mxCell" (attrsOfFields fields) []] := by
      rw [descsL_cons]
      simp [isCell, XEl.tag, XEl.children, descsL_nil]
    have hcells : descsL isCell (addCell d fields).children
        = descsL isCell d.children ++ [XEl.mk "mxCell" (attrsOfFields fields) []] := by
      rw [hch, descsL_append, hsingle]
    refine ⟨?_, hcells, ?_, ?_, ?_⟩
    · simp [Drawio.add_element, hd]
    · intro hnd
      exact attrsOfFields_eq fields hnd
    · intro hnd hidm hfresh
      rw [hcells, List.countP_append]
      have hz : (descsL isCell d.children).countP
          (fun c => fields.all (fun kv => getAttr? c.attrs kv.1 == some kv.2)) = 0 := by
        rw [List.countP_eq_zero]
        intro c hc hmatch
        have hall := List.all_eq_true.mp hmatch ("id", i) hidm
        simp only [beq_iff_eq] at hall
        exact hfresh c hc hall
      have ho : (List.countP
          (fun c => fields.all (fun kv => getAttr? c.attrs kv.1 == some kv.2))
          [XEl.mk "mxCell" (attrsOfFields fields) []]) = 1 := by
        have hmatch : (fun (c : XEl) => fields.all
            (fun kv => getAttr? c.attrs kv.1 == some kv.2))
            (XEl.mk "mxCell" (attrsOfFields fields) []) = true := by
          apply List.all_eq_true.mpr
          intro kv hkv
          simp only [XEl.attrs, attrsOfFields_eq fields hnd, beq_iff_eq]
          exact getAttr?_mem_nodup fields kv.1 kv.2 hnd hkv
        simp [List.countP_cons, hmatch]
      rw [hz, ho]
    · simp [Drawio.get_elements]

theorem Drawio.add_element_spec_witness :
    Drawio.add_element ⟨none, some (XEl.mk "diagram" [] [])⟩ [("id", "7"), ("vertex", "1")]
      = .ok ⟨none, some (addCell (XEl.mk "diagram" [] []) [("id", "7"), ("vertex", "1")])⟩
    ∧ (descsL isCell (addCell (XEl.mk "diagram" [] [])
          [("id", "7"), ("vertex", "1")]).children).countP
        (fun c => [("id", "7"), ("vertex", "1")].all
          (fun kv => getAttr? c.attrs kv.1 == some kv.2)) = 1 := by
  have h := (Drawio.add_element_spec ⟨none, some (XEl.mk "diagram" [] [])⟩ "7"
    [("id", "7"), ("vertex", "1")]).2 (XEl.mk "diagram" [] []) rfl
  refine ⟨h.1, ?_⟩
  apply h.2.2.2.1
  · decide
  · decide
  · intro c hc
    simp only [XEl.children] at hc
    rw [descsL_nil] at hc
    simp at hc

/-- C6: `create_new()` is total and produces a Document whose diagram node
has id "1" and name "Page-1" and contains exactly two elements, one with id
"0" and one with id "1" whose parent is "0". -/
theorem Drawio.create_new_spec (s : DrawIOState) :
    Drawio.create_new s
      = ⟨some (XEl.mk "mxfile" []
          [XEl.mk "diagram" [("id", "1"), ("name", "Page-1")]
            [XEl.mk "mxCell" [("id", "0")] [],
             XEl.mk "mxCell" [("id", "1"), ("parent", "0")] []]]),
         some (XEl.mk "diagram" [("id", "1"), ("name", "Page-1")]
            [XEl.mk "mxCell" [("id", "0")] [],
             XEl.mk "mxCell" [("id", "1"), ("parent", "0")] []])⟩
    ∧ Drawio.get_elements (Drawio.create_new s)
      = [⟨"0", "", "", "", "", "", none⟩, ⟨"1", "", "", "0", "", "", none⟩] := by
  constructor
  · rfl
  · have h0 : Drawio.get_elements (Drawio.create_new s)
        = (descsL isCell [XEl.mk "mxCell" [("id", "0")] [],
            XEl.mk "mxCell" [("id", "1"), ("parent", "0")] []]).map elementData := rfl
    have h2 : descsL isCell [XEl.mk "mxCell" [("id", "0")] [],
        XEl.mk "mxCell" [("id", "1"), ("parent", "0")] []]
        = [XEl.mk "mxCell" [("id", "0")] [],
           XEl.mk "mxCell" [("id", "1"), ("parent", "0")] []] := by
      rw [descsL_cons, descsL_cons]
      simp [isCell, XEl.tag, XEl.children, descsL_nil]
    rw [h0, h2]
    rfl

/-- C8: `get_elements()` returns the empty sequence (rather than failing)
whenever no Diagram is held, and it is a read-only query: run as a state
transaction it returns the state unchanged. -/
theorem Drawio.get_elements_spec :
    (∀ root : Option XEl, Drawio.get_elements ⟨root, none⟩ = [])
    ∧ (∀ s : DrawIOState, Drawio.get_elements_run s = (Drawio.get_elements s, s)) :=
  ⟨fun _ => rfl, fun _ => rfl⟩

/-- C2: with a Diagram held, `insert_latex_equation` appends one new image
cell: its geometry carries the given position as `x`/`y` and the renderer
result as `width`/`height`, its style string contains the base64 encoding
of the rendered SVG, its id is "latex_" followed by the element count
before insertion plus one, and that id is returned. -/
theorem Drawio.insert_latex_equation_spec (s : DrawIOState) (d : XEl)
    (svg_output : SvgOutput) (x y : Int) (hd : s.diagram = some d) :
    let rid := "latex_" ++ toString ((Drawio.get_elements s).length + 1)
    let cell := XEl.mk "mxCell"
      [("id", rid), ("style", latexStyle (b64encodeStr svg_output.svg)),
       ("vertex", "1"), ("parent", "1")]
      [XEl.mk "mxGeometry"
        [("x", toString x), ("y", toString y),
         ("width", toString svg_output.width), ("height", toString svg_output.height),
         ("as", "geometry")] []]
    Drawio.insert_latex_equation s svg_output (x, y)
      = .ok (⟨s.root, some (XEl.mk d.tag d.attrs (d.children ++ [cell]))⟩, rid)
    ∧ descsL isCell (d.children ++ [cell]) = descsL isCell d.children ++ [cell]
    ∧ (∃ pre suf, latexStyle (b64encodeStr svg_output.svg)
        = pre ++ b64encodeStr svg_output.svg ++ suf)
    ∧ elementData cell
      = ⟨rid, "", latexStyle (b64encodeStr svg_output.svg), "1", "1", "",
         some ⟨toString x, toString y,
           toString svg_output.width, toString svg_output.height⟩⟩ := by
  intro rid cell
  refine ⟨?_, ?_, ?_, ?_⟩
  · simp only [Drawio.insert_latex_equation, hd]
    rfl
  · rw [descsL_append, descsL_cons]
    simp only [isCell, XEl.tag, XEl.children, descsL_nil]
    rw [descsL_cons]
    simp [isCell, XEl.tag, XEl.children, descsL_nil]
  · exact ⟨"shape=image;verticalLabelPosition=bottom;labelBackgroundColor=#ffffff;verticalAlign=top;aspect=fixed;imageAspect=0;image=data:image/svg+xml;base64,",
      ";", rfl⟩
  · rfl

theorem Drawio.insert_latex_equation_spec_witness :
    Drawio.insert_latex_equation ⟨none, some (XEl.mk "diagram" [] [])⟩
      ⟨"<svg/>", 50, 20⟩ (10, 20)
      = .ok (⟨none, some (XEl.mk "diagram" []
          [XEl.mk "mxCell"
            [("id", "latex_" ++ toString
                ((Drawio.get_elements ⟨none, some (XEl.mk "diagram" [] [])⟩).length + 1)),
             ("style", latexStyle (b64encodeStr "<svg/>")),
             ("vertex", "1"), ("parent", "1")]
            [XEl.mk "mxGeometry"
              [("x", toString (10 : Int)), ("y", toString (20 : Int)),
               ("width", toString (50 : Int)), ("height", toString (20 : Int)),
               ("as", "geometry")] []]])⟩,
        "latex_" ++ toString
          ((Drawio.get_elements ⟨none, some (XEl.mk "diagram" [] [])⟩).length + 1)) :=
  (Drawio.insert_latex_equation_spec ⟨none, some (XEl.mk "diagram" [] [])⟩
    (XEl.mk "diagram" [] []) ⟨"<svg/>", 50, 20⟩ 10 20 rfl).1

/-- C1 (amended): a `load` that fails parsing leaves the state unchanged,
but a `load` of a well-formed document without a diagram node raises the
"diagram not found" error only after replacing the held Document with the
newly parsed root and clearing the cached Diagram reference; the held
Document is replaced whenever parsing succeeds, not only when `load`
succeeds. -/
theorem Drawio.load_spec (s : DrawIOState) (content : String) :
    (parseDocument content = none → Drawio.load s content = (.error "ParseError", s))
    ∧ (∀ r, parseDocument content = some r →
        (Drawio.load s content).2 = ⟨some r, findDescL isDiagram r.children⟩
        ∧ (findDescL isDiagram r.children = none →
            (Drawio.load s content).1 = .error "No diagram found in the DrawIO file")
        ∧ (∀ d, findDescL isDiagram r.children = some d →
            Drawio.load s content = (.ok (), ⟨some r, some d⟩))) := by
  constructor
  · intro h0
    simp [Drawio.load, h0]
  · intro r hr
    refine ⟨?_, ?_, ?_⟩
    · rcases hf : findDescL isDiagram r.children with _ | d
      · simp [Drawio.load, hr, hf]
      · simp [Drawio.load, hr, hf]
    · intro hf
      simp [Drawio.load, hr, hf]
    · intro d hf
      simp [Drawio.load, hr, hf]

theorem Drawio.load_spec_witness :
    (Drawio.load ⟨some (XEl.mk "old" [] []), some (XEl.mk "diagram" [] [])⟩
        "<mxfile />").2
      = ⟨some (XEl.mk "mxfile" [] []), findDescL isDiagram (XEl.mk "mxfile" [] []).children⟩ :=
  ((Drawio.load_spec ⟨some (XEl.mk "old" [] []), some (XEl.mk "diagram" [] [])⟩
    "<mxfile />").2 (XEl.mk "mxfile" [] []) rfl).1

theorem Drawio.load_spec_counterexample :
    (Drawio.load ⟨some (XEl.mk "old" [] []), some (XEl.mk "diagram" [] [])⟩
        "<mxfile />").1
      = .error "No diagram found in the DrawIO file"
    ∧ (Drawio.load ⟨some (XEl.mk "old" [] []), some (XEl.mk "diagram" [] [])⟩
        "<mxfile />").2
      = ⟨some (XEl.mk "mxfile" [] []), none⟩
    ∧ (⟨some (XEl.mk "mxfile" [] []), (none : Option XEl)⟩ : DrawIOState)
      ≠ ⟨some (XEl.mk "old" [] []), some (XEl.mk "diagram" [] [])⟩ := by
  have hp : parseDocument "<mxfile />" = some (XEl.mk "mxfile" [] []) := rfl
  refine ⟨?_, ?_, ?_⟩
  · simp [Drawio.load, hp, XEl.children, findDescL_nil]
  · simp [Drawio.load, hp, XEl.children, findDescL_nil]
  · intro h
    simp at h

theorem foldl_range_iterate {α : Type} (f : α → α) : ∀ (n : Nat) (x : α),
    (List.range n).foldl (fun p _ => f p) x = Nat.iterate f n x := by
  intro n
  induction n with
  | zero =>
    intro x
    rfl
  | succ n ih =>
    intro x
    rw [List.range_succ, List.foldl_append]
    simp only [List.foldl_cons, List.foldl_nil]
    rw [ih]
    exact (Function.iterate_succ_apply' f n x).symm

/-- C9: for every non-negative level, `get_parent_dir(path, level)` applies
`os.path.dirname` exactly `level` times; in particular
`get_parent_dir("/a/b/c/d.txt", 2)` is "/a/b". The function is pure — it is
a plain function of its arguments in this model. -/
theorem get_parent_dir_spec :
    (∀ (path : String) (level : Int), 0 ≤ level →
      get_parent_dir path level = Nat.iterate dirname level.toNat path)
    ∧ get_parent_dir "/a/b/c/d.txt" 2 = "/a/b" := by
  constructor
  · intro path level _
    exact foldl_range_iterate dirname level.toNat path
  · rfl

theorem get_parent_dir_spec_witness :
    get_parent_dir "/a/b/c/d.txt" 2 = Nat.iterate dirname (2 : Int).toNat "/a/b/c/d.txt" :=
  get_parent_dir_spec.1 "/a/b/c/d.txt" 2 (by decide)

/-- C10: for every level at most zero the parent-extraction loop runs zero
times, so `get_parent_dir` returns the path unchanged. -/
theorem get_parent_dir_nonpos (path : String) (level : Int) (h : level ≤ 0) :
    get_parent_dir path level = path := by
  unfold get_parent_dir
  rw [show level.toNat = 0 from Int.toNat_eq_zero.mpr h]
  rfl

theorem get_parent_dir_nonpos_witness :
    get_parent_dir "/a/b" (-1) = "/a/b" :=
  get_parent_dir_nonpos "/a/b" (-1) (by decide)

theorem escapeAttribL_length : ∀ v : List Char, v.length ≤ (escapeAttribL v).length := by
  intro v
  induction v with
  | nil => simp [escapeAttribL]
  | cons c v' ih =>
    have h : escapeAttribL (c :: v') = escapeAttribChar c ++ escapeAttribL v' := by
      simp [escapeAttribL]
    have hc : 1 ≤ (escapeAttribChar c).length := by
      unfold escapeAttribChar
      split_ifs <;> simp
    rw [h, List.length_append, List.length_cons]
    omega

theorem parseAttrValue_roundtrip : ∀ (v : List Char) (fuel : Nat), v.length ≤ fuel →
    ∀ rest, parseAttrValue fuel (escapeAttribL v ++ '"' :: rest) = some (v, rest) := by
  intro v
  induction v with
  | nil =>
    intro fuel _ rest
    simp only [escapeAttribL, List.flatMap_nil, List.nil_append]
    rw [parseAttrValue.eq_def]
    simp
  | cons c v' ih =>
    intro fuel hf rest
    obtain ⟨fuel', rfl⟩ : ∃ f', fuel = f' + 1 := ⟨fuel - 1, by simp at hf; omega⟩
    have hf' : v'.length ≤ fuel' := by
      simp at hf
      omega
    have hesc : escapeAttribL (c :: v') ++ '"' :: rest
        = escapeAttribChar c ++ (escapeAttribL v' ++ '"' :: rest) := by
      simp [escapeAttribL]
    rw [hesc]
    by_cases h1 : c = '&'
    · subst h1
      simp [escapeAttribChar, parseAttrValue, parseEntity, ih v'.length le_rfl,
        ih fuel' hf']
    · by_cases h2 : c = '<'
      · subst h2
        simp [escapeAttribChar, parseAttrValue, parseEntity, ih fuel' hf']
      · by_cases h3 : c = '>'
        · subst h3
          simp [escapeAttribChar, parseAttrValue, parseEntity, ih fuel' hf']
        · by_cases h4 : c = '"'
          · subst h4
            simp [escapeAttribChar, parseAttrValue, parseEntity, ih fuel' hf']
          · by_cases h5 : c = '\r'
            · subst h5
              simp [escapeAttribChar, parseAttrValue, parseEntity, ih fuel' hf']
            · by_cases h6 : c = '\n'
              · subst h6
                simp [escapeAttribChar, parseAttrValue, parseEntity, ih fuel' hf']
              · by_cases h7 : c = '\t'
                · subst h7
                  simp [escapeAttribChar, parseAttrValue, parseEntity, ih fuel' hf']
                · rw [show escapeAttribChar c = [c] by
                    simp [escapeAttribChar, h1, h2, h3, h4, h5, h6, h7]]
                  simp [parseAttrValue, h1, h4, ih fuel' hf']

theorem string_mk_data (s : String) : String.mk s.data = s := rfl

theorem takeWhile_append_eq {α : Type} (p : α → Bool) : ∀ (xs ys : List α),
    (∀ x ∈ xs, p x = true) → (∀ h t, ys = h :: t → p h = false) →
    (xs ++ ys).takeWhile p = xs ∧ (xs ++ ys).dropWhile p = ys := by
  intro xs
  induction xs with
  | nil =>
    intro ys _ hy
    cases ys with
    | nil => simp
    | cons h t =>
      have hph := hy h t rfl
      simp [List.takeWhile_cons, List.dropWhile_cons, hph]
  | cons x xs ih =>
    intro ys hx hy
    have hpx : p x = true := hx x (List.mem_cons_self _ _)
    have hih := ih ys (fun a ha => hx a (List.mem_cons_of_mem _ ha)) hy
    simp [List.takeWhile_cons, List.dropWhile_cons, hpx, hih.1, hih.2]

theorem parseAttrs_roundtrip : ∀ (attrs : List (String × String)) (fuel : Nat),
    attrs.length ≤ fuel → (∀ kv ∈ attrs, wfNameB kv.1 = true) →
    ∀ (rest rest' : List Char),
    (((∃ r, rest = '>' :: r) ∧ rest' = rest)
      ∨ (∃ r, rest = ' ' :: '/' :: r ∧ rest' = '/' :: r)) →
    parseAttrs fuel (serializeAttrs attrs ++ rest) = some (attrs, rest') := by
  intro attrs
  induction attrs with
  | nil =>
    intro fuel _ _ rest rest' hstop
    rcases hstop with ⟨⟨r, rfl⟩, rfl⟩ | ⟨r, rfl, rfl⟩
    · simp only [serializeAttrs, List.flatMap_nil, List.nil_append]
      rw [parseAttrs.eq_def]
      simp
    · simp only [serializeAttrs, List.flatMap_nil, List.nil_append]
      rw [parseAttrs.eq_def]
      simp
  | cons kv attrs ih =>
    rcases kv with ⟨k, v⟩
    intro fuel hlen hwf rest rest' hstop
    obtain ⟨fuel', rfl⟩ : ∃ f', fuel = f' + 1 := ⟨fuel - 1, by simp at hlen; omega⟩
    have hlen' : attrs.length ≤ fuel' := by
      simp at hlen
      omega
    have hwk : wfNameB k = true := hwf (k, v) (List.mem_cons_self _ _)
    have hwf' : ∀ kv ∈ attrs, wfNameB kv.1 = true :=
      fun kv h => hwf kv (List.mem_cons_of_mem _ h)
    have hkne : k.data ≠ [] := by
      unfold wfNameB at hwk
      simp only [Bool.and_eq_true] at hwk
      simpa using hwk.1
    have hallname : ∀ x ∈ k.data, isNameChar x = true := by
      unfold wfNameB at hwk
      simp only [Bool.and_eq_true] at hwk
      exact List.all_eq_true.mp hwk.2
    have hser : serializeAttrs ((k, v) :: attrs) ++ rest
        = ' ' :: (k.data ++ ('=' :: '"' :: (escapeAttribL v.data
            ++ ('"' :: (serializeAttrs attrs ++ rest))))) := by
      simp [serializeAttrs, escapeAttribL]
    rw [hser]
    have htkdp := takeWhile_append_eq isNameChar k.data
      ('=' :: '"' :: (escapeAttribL v.data ++ ('"' :: (serializeAttrs attrs ++ rest))))
      hallname (by
        intro h t he
        injection he with he1 _
        rw [← he1]
        rfl)
    obtain ⟨kh, kt, hk⟩ : ∃ kh kt, k.data = kh :: kt := by
      cases hkd : k.data with
      | nil => exact absurd hkd hkne
      | cons a b => exact ⟨a, b, rfl⟩
    have hkh : isNameChar kh = true :=
      hallname kh (by rw [hk]; exact List.mem_cons_self _ _)
    have hheadn : ¬ ((k.data ++ ('=' :: '"' :: (escapeAttribL v.data
        ++ ('"' :: (serializeAttrs attrs ++ rest))))).head? = some '/') := by
      rw [hk]
      simp only [List.cons_append, List.head?_cons, Option.some.injEq]
      intro he
      rw [he] at hkh
      exact absurd hkh (by decide)
    have hval : parseAttrValue (escapeAttribL v.data
          ++ ('"' :: (serializeAttrs attrs ++ rest))).length
        (escapeAttribL v.data ++ ('"' :: (serializeAttrs attrs ++ rest)))
        = some (v.data, serializeAttrs attrs ++ rest) := by
      apply parseAttrValue_roundtrip
      rw [List.length_append]
      have := escapeAttribL_length v.data
      omega
    have hrec := ih fuel' hlen' hwf' rest rest' hstop
    rw [parseAttrs.eq_def]
    simp only [if_neg (by decide : ¬(' ' = '>' ∨ ' ' = '/')), if_pos (rfl : ' ' = ' '),
      if_neg hheadn, htkdp.1, htkdp.2, if_neg hkne, hval, hrec, Option.map_some,
      string_mk_data]
    simp

theorem serializeList_nil : serializeList [] = [] := by
  simp [serializeList]

theorem serializeList_cons_leaf (t : String) (a : List (String × String)) (cs : List XEl) :
    serializeList (XEl.mk t a [] :: cs)
      = '<' :: (t.data ++ (serializeAttrs a ++ (' ' :: '/' :: '>' :: serializeList cs))) := by
  simp [serializeList, List.append_assoc]

theorem serializeList_cons_node (t : String) (a : List (String × String))
    (c : XEl) (ccs' cs : List XEl) :
    serializeList (XEl.mk t a (c :: ccs') :: cs)
      = '<' :: (t.data ++ (serializeAttrs a ++ ('>' :: (serializeList (c :: ccs')
          ++ ('<' :: '/' :: (t.data ++ ('>' :: serializeList cs))))))) := by
  simp [serializeList, List.append_assoc]

theorem serializeEl_append (x : XEl) (cs : List XEl) :
    serializeList (x :: cs) = serializeEl x ++ serializeList cs := by
  obtain ⟨t, a, ccs⟩ := x
  cases ccs with
  | nil =>
    rw [serializeEl, serializeList_cons_leaf, serializeList_cons_leaf, serializeList_nil]
    simp [List.append_assoc]
  | cons c ccs' =>
    rw [serializeEl, serializeList_cons_node, serializeList_cons_node, serializeList_nil]
    simp [List.append_assoc]

theorem needList_nil : needList [] = 0 := by
  simp [needList]

theorem needList_cons (t : String) (a : List (String × String)) (ccs cs : List XEl) :
    needList (XEl.mk t a ccs :: cs) = 1 + (1 + a.length + needList ccs) + needList cs := by
  simp only [needList]

theorem needEl_eq (t : String) (a : List (String × String)) (ccs : List XEl) :
    needEl (XEl.mk t a ccs) = 1 + a.length + needList ccs := by
  simp only [needEl]

theorem wfList_nil : wfList [] = true := by
  simp [wfList]

theorem wfList_cons (t : String) (a : List (String × String)) (ccs cs : List XEl) :
    wfList (XEl.mk t a ccs :: cs)
      = (wfNameB t && a.all (fun kv => wfNameB kv.1) && wfList ccs && wfList cs) := by
  simp only [wfList]

theorem serializeAttrs_length (a : List (String × String)) :
    a.length ≤ (serializeAttrs a).length := by
  induction a with
  | nil => simp [serializeAttrs]
  | cons kv rest ih =>
    have h : serializeAttrs (kv :: rest)
        = (' ' :: (kv.1.data ++ '=' :: '"' :: (escapeAttribL kv.2.data ++ ['"'])))
          ++ serializeAttrs rest := by
      simp [serializeAttrs]
    rw [h, List.length_append]
    simp only [List.length_cons, List.length_append]
    omega

theorem needList_le_length : ∀ l, needList l ≤ (serializeList l).length := by
  refine listXEl_ind ?_ ?_
  · rw [needList_nil, serializeList_nil]
    simp
  · intro t a ccs cs ih1 ih2
    rw [needList_cons]
    have hsa := serializeAttrs_length a
    cases ccs with
    | nil =>
      rw [serializeList_cons_leaf, needList_nil]
      simp only [List.length_cons, List.length_append]
      omega
    | cons c ccs' =>
      rw [serializeList_cons_node]
      simp only [List.length_cons, List.length_append]
      omega

theorem serializeAttrs_head_not_name (a : List (String × String)) (c0 : Char)
    (hc0 : isNameChar c0 = false) (X : List Char) :
    ∀ h tl, (serializeAttrs a ++ c0 :: X) = h :: tl → isNameChar h = false := by
  cases a with
  | nil =>
    intro h tl he
    simp only [serializeAttrs, List.flatMap_nil, List.nil_append] at he
    injection he with h1 _
    rw [← h1]
    exact hc0
  | cons kv arest =>
    intro h tl he
    have hs : serializeAttrs (kv :: arest) ++ c0 :: X
        = ' ' :: ((kv.1.data ++ '=' :: '"' :: (escapeAttribL kv.2.data ++ ['"']))
            ++ (serializeAttrs arest ++ c0 :: X)) := by
      simp [serializeAttrs, List.append_assoc]
    rw [hs] at he
    injection he with h1 _
    rw [← h1]
    rfl

theorem wfNameB_data_ne (t : String) (h : wfNameB t = true) : t.data ≠ [] := by
  unfold wfNameB at h
  simp only [Bool.and_eq_true] at h
  simpa using h.1

theorem wfNameB_all (t : String) (h : wfNameB t = true) :
    ∀ x ∈ t.data, isNameChar x = true := by
  unfold wfNameB at h
  simp only [Bool.and_eq_true] at h
  exact List.all_eq_true.mp h.2

theorem parse_serialize_roundtrip : ∀ l : List XEl,
    (∀ t a, wfNameB t = true → (∀ kv ∈ a, wfNameB kv.1 = true) → wfList l = true →
      ∀ fuel, needEl (XEl.mk t a l) ≤ fuel → ∀ rest,
        parseEl fuel (serializeEl (XEl.mk t a l) ++ rest) = some (XEl.mk t a l, rest))
    ∧ (wfList l = true → ∀ fuel, needList l ≤ fuel → ∀ r0,
        parseChildren fuel (serializeList l ++ ('<' :: '/' :: r0))
          = some (l, '<' :: '/' :: r0)) := by
  refine listXEl_ind ?_ ?_
  · constructor
    · intro t a hwt hwa _ fuel hfuel rest
      rw [needEl_eq, needList_nil] at hfuel
      obtain ⟨fuel', rfl⟩ : ∃ f', fuel = f' + 1 := ⟨fuel - 1, by omega⟩
      have hlenA : a.length ≤ fuel' := by omega
      have hinput : serializeEl (XEl.mk t a []) ++ rest
          = '<' :: (t.data ++ (serializeAttrs a ++ (' ' :: '/' :: '>' :: rest))) := by
        rw [serializeEl, serializeList_cons_leaf, serializeList_nil]
        simp [List.append_assoc]
      rw [hinput]
      have hkne := wfNameB_data_ne t hwt
      have htkdp := takeWhile_append_eq isNameChar t.data
        (serializeAttrs a ++ (' ' :: '/' :: '>' :: rest))
        (wfNameB_all t hwt) (serializeAttrs_head_not_name a ' ' (by decide) _)
      have hattrs := parseAttrs_roundtrip a fuel' hlenA hwa
        (' ' :: '/' :: '>' :: rest) ('/' :: '>' :: rest)
        (Or.inr ⟨'>' :: rest, rfl, rfl⟩)
      rw [parseEl.eq_def]
      simp only [htkdp.1, htkdp.2, if_neg hkne, hattrs, string_mk_data]
    · intro _ fuel _ r0
      rw [serializeList_nil, List.nil_append, parseChildren.eq_def]
      simp
  · intro t0 a0 ccs cs ih1 ih2
    have hchild : wfList (XEl.mk t0 a0 ccs :: cs) = true →
        ∀ fuel, needList (XEl.mk t0 a0 ccs :: cs) ≤ fuel → ∀ r0,
        parseChildren fuel (serializeList (XEl.mk t0 a0 ccs :: cs) ++ ('<' :: '/' :: r0))
          = some (XEl.mk t0 a0 ccs :: cs, '<' :: '/' :: r0) := by
      intro hwl fuel hfuel r0
      rw [wfList_cons] at hwl
      simp only [Bool.and_eq_true] at hwl
      obtain ⟨⟨⟨hwt0, hwa0⟩, hwccs⟩, hwcs⟩ := hwl
      rw [needList_cons] at hfuel
      obtain ⟨fuel', rfl⟩ : ∃ f', fuel = f' + 1 := ⟨fuel - 1, by omega⟩
      have hneedx : needEl (XEl.mk t0 a0 ccs) ≤ fuel' := by
        rw [needEl_eq]
        omega
      have hneedcs : needList cs ≤ fuel' := by omega
      have hinput : serializeList (XEl.mk t0 a0 ccs :: cs) ++ ('<' :: '/' :: r0)
          = serializeEl (XEl.mk t0 a0 ccs) ++ (serializeList cs ++ ('<' :: '/' :: r0)) := by
        rw [serializeEl_append, List.append_assoc]
      obtain ⟨kh, kt, hk⟩ : ∃ kh kt, t0.data = kh :: kt := by
        cases hkd : t0.data with
        | nil => exact absurd hkd (wfNameB_data_ne t0 hwt0)
        | cons x y => exact ⟨x, y, rfl⟩
      have hkh : isNameChar kh = true :=
        wfNameB_all t0 hwt0 kh (by rw [hk]; exact List.mem_cons_self _ _)
      have hkhs : ¬ kh = '/' := by
        intro he
        rw [he] at hkh
        exact absurd hkh (by decide)
      have hLform : ∃ REST, serializeEl (XEl.mk t0 a0 ccs)
          ++ (serializeList cs ++ ('<' :: '/' :: r0)) = '<' :: (t0.data ++ REST) := by
        cases ccs with
        | nil =>
          rw [serializeEl, serializeList_cons_leaf, serializeList_nil]
          exact ⟨serializeAttrs a0
            ++ (' ' :: '/' :: '>' :: (serializeList cs ++ ('<' :: '/' :: r0))),
            by simp [List.append_assoc]⟩
        | cons c ccs' =>
          rw [serializeEl, serializeList_cons_node, serializeList_nil]
          exact ⟨serializeAttrs a0 ++ ('>' :: (serializeList (c :: ccs')
            ++ ('<' :: '/' :: (t0.data
              ++ ('>' :: (serializeList cs ++ ('<' :: '/' :: r0))))))),
            by simp [List.append_assoc]⟩
      obtain ⟨REST, hLform⟩ := hLform
      have hMID : serializeEl (XEl.mk t0 a0 ccs)
          ++ (serializeList cs ++ ('<' :: '/' :: r0)) = '<' :: kh :: (kt ++ REST) := by
        rw [hLform, hk]
        simp
      have hel := ih1.1 t0 a0 hwt0
        (fun kv hkv => List.all_eq_true.mp hwa0 kv hkv) hwccs fuel' hneedx
        (serializeList cs ++ ('<' :: '/' :: r0))
      have hcs := ih2.2 hwcs fuel' hneedcs r0
      rw [hinput, hMID, parseChildren.eq_def]
      simp only [List.head?_cons, Option.some.injEq]
      rw [if_neg hkhs, ← hMID]
      simp only [hel, hcs]
    refine ⟨?_, hchild⟩
    intro t a hwt hwa hwl fuel hfuel rest
    rw [needEl_eq] at hfuel
    obtain ⟨fuel', rfl⟩ : ∃ f', fuel = f' + 1 := ⟨fuel - 1, by omega⟩
    have hlenA : a.length ≤ fuel' := by omega
    have hneedch : needList (XEl.mk t0 a0 ccs :: cs) ≤ fuel' := by omega
    have hinput : serializeEl (XEl.mk t a (XEl.mk t0 a0 ccs :: cs)) ++ rest
        = '<' :: (t.data ++ (serializeAttrs a ++ ('>' :: (serializeList (XEl.mk t0 a0 ccs :: cs)
            ++ ('<' :: '/' :: (t.data ++ ('>' :: rest))))))) := by
      rw [serializeEl, serializeList_cons_node, serializeList_nil]
      simp [List.append_assoc]
    rw [hinput]
    have hkne := wfNameB_data_ne t hwt
    have htkdp := takeWhile_append_eq isNameChar t.data
      (serializeAttrs a ++ ('>' :: (serializeList (XEl.mk t0 a0 ccs :: cs)
        ++ ('<' :: '/' :: (t.data ++ ('>' :: rest))))))
      (wfNameB_all t hwt) (serializeAttrs_head_not_name a '>' (by decide) _)
    have hattrs := parseAttrs_roundtrip a fuel' hlenA hwa
      ('>' :: (serializeList (XEl.mk t0 a0 ccs :: cs)
        ++ ('<' :: '/' :: (t.data ++ ('>' :: rest)))))
      ('>' :: (serializeList (XEl.mk t0 a0 ccs :: cs)
        ++ ('<' :: '/' :: (t.data ++ ('>' :: rest)))))
      (Or.inl ⟨⟨_, rfl⟩, rfl⟩)
    have hchildren := hchild hwl fuel' hneedch (t.data ++ ('>' :: rest))
    rw [parseEl.eq_def]
    simp only [htkdp.1, htkdp.2, if_neg hkne, hattrs, hchildren, string_mk_data,
      List.drop_left, List.take_left]
    simp

theorem skipDecl_header (tail : List Char) :
    skipDecl ("xml version=\x271.0\x27 encoding=\x27UTF-8\x27?>".data ++ '\n' :: tail)
      = some ('\n' :: tail) := rfl

theorem serializeEl_head (x : XEl) : ∃ restE, serializeEl x = '<' :: restE := by
  obtain ⟨t, a, ccs⟩ := x
  cases ccs with
  | nil =>
    rw [serializeEl, serializeList_cons_leaf, serializeList_nil]
    exact ⟨_, rfl⟩
  | cons c cl =>
    rw [serializeEl, serializeList_cons_node, serializeList_nil]
    exact ⟨_, rfl⟩

theorem parseDocument_serializeDocument (r : XEl) (hwf : wfEl r = true) :
    parseDocument (serializeDocument r) = some r := by
  obtain ⟨t, a, l⟩ := r
  unfold wfEl at hwf
  rw [wfList_cons] at hwf
  simp only [Bool.and_eq_true] at hwf
  obtain ⟨⟨⟨hwt, hwa⟩, hwl⟩, _⟩ := hwf
  obtain ⟨restE, hE⟩ := serializeEl_head (XEl.mk t a l)
  have hfuel : needEl (XEl.mk t a l) ≤ (serializeEl (XEl.mk t a l)).length := by
    have h1 := needList_le_length [XEl.mk t a l]
    rw [needList_cons, needList_nil] at h1
    rw [needEl_eq]
    have h2 : serializeList [XEl.mk t a l] = serializeEl (XEl.mk t a l) := rfl
    rw [h2] at h1
    omega
  have hparse := (parse_serialize_roundtrip l).1 t a hwt
    (fun kv hkv => List.all_eq_true.mp hwa kv hkv) hwl
    (serializeEl (XEl.mk t a l)).length hfuel []
  rw [List.append_nil] at hparse
  have h1 : parseDocument (serializeDocument (XEl.mk t a l))
      = parseDocumentChars (xmlDeclChars ++ serializeEl (XEl.mk t a l)) := rfl
  rw [h1]
  have hx : xmlDeclChars ++ serializeEl (XEl.mk t a l)
      = '<' :: '?' :: ("xml version=\x271.0\x27 encoding=\x27UTF-8\x27?>".data
          ++ '\n' :: serializeEl (XEl.mk t a l)) := rfl
  unfold parseDocumentChars
  rw [hx]
  simp only [skipDecl_header (serializeEl (XEl.mk t a l))]
  rw [hE]
  simp only [List.dropWhile_cons]
  norm_num [show isXmlSpace '\n' = true from rfl, show isXmlSpace '<' = false from rfl]
  rw [← hE]
  have hlen : (serializeEl (XEl.mk t a l)).length = restE.length + 1 := by
    rw [hE]
    rfl
  rw [← hlen, hparse]
  simp

/-- C3: for a valid DrawIO file (one that parses to a well-formed document
holding a diagram node), `load` then `save` to a new path then `load` of the
saved content restores the identical root document and diagram, so
`get_elements()` after the reload equals `get_elements()` after the first
load. -/
theorem Drawio.load_save_load_roundtrip (s s' : DrawIOState) (content : String)
    (r : XEl) (hp : parseDocument content = some r) (hwf : wfEl r = true) :
    parseDocument (serializeDocument r) = some r
    ∧ (∀ d, findDescL isDiagram r.children = some d →
        Drawio.load s content = (.ok (), ⟨some r, some d⟩)
        ∧ Drawio.save ⟨some r, some d⟩ = .ok (serializeDocument r)
        ∧ Drawio.load s' (serializeDocument r) = (.ok (), ⟨some r, some d⟩)
        ∧ Drawio.get_elements ((Drawio.load s' (serializeDocument r)).2)
            = Drawio.get_elements ((Drawio.load s content).2)) := by
  have hrt := parseDocument_serializeDocument r hwf
  refine ⟨hrt, ?_⟩
  intro d hf
  have hload1 : Drawio.load s content = (.ok (), ⟨some r, some d⟩) := by
    simp [Drawio.load, hp, hf]
  have hload2 : Drawio.load s' (serializeDocument r) = (.ok (), ⟨some r, some d⟩) := by
    simp [Drawio.load, hrt, hf]
  refine ⟨hload1, by simp [Drawio.save], hload2, ?_⟩
  rw [hload1, hload2]

theorem Drawio.load_save_load_roundtrip_witness :
    Drawio.load ⟨none, none⟩ "<mxfile><diagram /></mxfile>"
      = (.ok (), ⟨some (XEl.mk "mxfile" [] [XEl.mk "diagram" [] []]),
          some (XEl.mk "diagram" [] [])⟩)
    ∧ Drawio.load ⟨none, none⟩
        (serializeDocument (XEl.mk "mxfile" [] [XEl.mk "diagram" [] []]))
      = (.ok (), ⟨some (XEl.mk "mxfile" [] [XEl.mk "diagram" [] []]),
          some (XEl.mk "diagram" [] [])⟩) := by
  have hwf : wfEl (XEl.mk "mxfile" [] [XEl.mk "diagram" [] []]) = true := by
    unfold wfEl
    simp only [wfList_cons, wfList_nil]
    decide
  have hf : findDescL isDiagram (XEl.mk "mxfile" [] [XEl.mk "diagram" [] []]).children
      = some (XEl.mk "diagram" [] []) := by
    simp only [XEl.children]
    rw [findDescL_cons]
    simp [isDiagram, XEl.tag]
  have h := (Drawio.load_save_load_roundtrip ⟨none, none⟩ ⟨none, none⟩
    "<mxfile><diagram /></mxfile>" (XEl.mk "mxfile" [] [XEl.mk "diagram" [] []])
    rfl hwf).2 (XEl.mk "diagram" [] []) hf
  exact ⟨h.1, h.2.2.1⟩
